import Mathlib

/-!
# Verification of the iris overlay maintenance core

Shallow embedding of the routing-table maintenance functions of
`proto/overlay/maintenance.go`, the messaging helpers of
`proto/overlay/messaging.go`, and the liveness monitor of `heart/heart.go`.

Node ids (`*big.Int` in the source) are modelled as `Nat`.  Valid node ids are
fixed-width unsigned integers, i.e. naturals below a modulus `N = 2^bits`; the
modulus is carried as an explicit parameter.  Configuration constants
(`OverlayLeaves` = `L`, the digit base `b`, the digit width `W`) are likewise
explicit parameters.  Fallible Go code (array accesses that can go out of
range, operations returning `error`) is modelled with `Option`/`Except`.
-/

namespace Iris

/-! ## Circular ordering of node ids

The source sorts leaf candidates with `idSlice{o.nodeId, res}` (a
`sort.Interface` whose comparator is defined outside the provided extract).
-/

/-- Modelled from the spec: the circular order anchored at `self`
("treat the ring as starting immediately after `self` and increasing").
`circKey N self x` is the circular distance walked clockwise from `self`
to `x` on the ring of size `N`; ids are compared by this key, so `self`
itself has key `0`. -/
def circKey (N self x : Nat) : Nat :=
  (x + N - self % N) % N

/-- Comparison of two ids by their circular key. -/
def keyLe (key : Nat → Nat) (x y : Nat) : Prop :=
  key x ≤ key y

instance (key : Nat → Nat) : DecidableRel (keyLe key) := fun x y =>
  inferInstanceAs (Decidable (key x ≤ key y))

instance (key : Nat → Nat) : IsTotal Nat (keyLe key) :=
  ⟨fun x y => Nat.le_total (key x) (key y)⟩

instance (key : Nat → Nat) : IsTrans Nat (keyLe key) :=
  ⟨fun _ _ _ h h' => Nat.le_trans h h'⟩

/-- `sort.Sort(idSlice{o.nodeId, res})`: sort a list of ids by circular key. -/
def sortByKey (key : Nat → Nat) (l : List Nat) : List Nat :=
  l.insertionSort (keyLe key)

/-- Helper for `dedupConsec`: `x` is the element currently kept; each next
element is compared against it and dropped when it compares equal. -/
def dedupAux (key : Nat → Nat) (x : Nat) : List Nat → List Nat
  | [] => [x]
  | y :: rest =>
    if key x = key y then dedupAux key x rest
    else x :: dedupAux key y rest

/-- Modelled from the spec: `sortext.Unique` (source file not in the extract)
keeps, of each run of elements that compare equal under the sort order, the
first one.  On a list sorted by `key` this removes the duplicates. -/
def dedupConsec (key : Nat → Nat) : List Nat → List Nat
  | [] => []
  | x :: rest => dedupAux key x rest

/-- The origin-search loop of `mergeLeaves`:
`origin := 0; for o.nodeId.Cmp(res[origin]) != 0 { origin++ }`.
Returns the first index holding `self`, or `none` when the scan would run
past the end of the slice (an out-of-range access in the Go original). -/
def findOrigin (self : Nat) : List Nat → Option Nat
  | [] => none
  | x :: rest =>
    if x = self then some 0 else (findOrigin self rest).map (· + 1)

/-- `mergeLeaves` from `proto/overlay/maintenance.go`: append the two leaf
sets, sort circularly around `self`, drop duplicates, locate `self` and return
the window `[origin - L/2, origin + L/2)` clipped to the slice bounds.
`L` is the configuration constant `OverlayLeaves` and `N` the id-space
modulus.  Returns `none` when the origin scan runs out of range. -/
def mergeLeaves (L N self : Nat) (a b : List Nat) : Option (List Nat) :=
  let res := dedupConsec (circKey N self) (sortByKey (circKey N self) (a ++ b))
  match findOrigin self res with
  | none => none
  | some origin =>
    let lo := max 0 (origin - L / 2)
    let hi := min res.length (origin + L / 2)
    some ((res.drop lo).take (hi - lo))

/-! ## Prefix coordinates

`prefix(o.nodeId, id)` lives in the overlay's id helper file, outside the
extract; it is modelled from the spec. -/

/-- The `r`-th base-`b` digit (most significant first) of a `W`-digit id. -/
def digitAt (b W x r : Nat) : Nat :=
  x / b ^ (W - 1 - r) % b

/-- Modelled from the spec: `prefix(self, other) = (row, col)` where `row` is
the length of the shared leading base-`b` digit prefix (ids written with `W`
digits) and `col` is the next digit of `other`. -/
def prefixRC (b W self other : Nat) : Nat × Nat :=
  let row := (List.range W).findIdx (fun r => digitAt b W self r != digitAt b W other r)
  (row, digitAt b W other row)

/-! ## Routing table -/

/-- The routing table of `proto/overlay/table.go`: the leaf set and the
prefix-addressed routing matrix.  The Go `[][]‌*big.Int` matrix is embedded as
a cell function; cells outside the `rows × base` bounds are `none`. -/
structure Table where
  leaves : List Nat
  routes : Nat → Nat → Option Nat

/-- The state-exchange record of `proto/overlay/messaging.go`.  The Go
`Addrs map[string][]string` keyed by decimal id strings is embedded as an
association list whose keys are pre-parsed: `some id` for a well-formed id
string and `none` for a malformed one (`big.Int.SetString` failure). -/
structure StateMsg where
  Addrs : List (Option Nat × List String)
  Updated : Nat
  Repair : Bool
  Passive : Bool

/-- The id-extraction loop at the top of `merge`: parse each key, skip
malformed ids, skip the loopback id `self`. -/
def extractIds (self : Nat) (entries : List (Option Nat × List String)) : List Nat :=
  entries.filterMap fun e =>
    match e.1 with
    | some id => if self ≠ id then some id else none
    | none => none

/-- One iteration of the routing-matrix loop of `merge`: look at the cell
`prefix(self, id)`; install the id when the cell is empty, otherwise keep the
incumbent (`// Discard new entry (less disruptive)`). -/
def mergeStep (b W self : Nat) (rt : Nat → Nat → Option Nat) (id : Nat) :
    Nat → Nat → Option Nat :=
  let rc := prefixRC b W self id
  fun r c =>
    if (r, c) = rc then
      match rt rc.1 rc.2 with
      | none => some id
      | some old => some old
    else rt r c

/-- The routing-matrix half of `merge`: fold `mergeStep` over the extracted
ids in order. -/
def mergeRoutes (b W self : Nat) (routes : Nat → Nat → Option Nat)
    (ids : List Nat) : Nat → Nat → Option Nat :=
  ids.foldl (mergeStep b W self) routes

/-- `merge` from `proto/overlay/maintenance.go` (the scratch address map,
which only feeds the later dial phase, is not tracked): extract the valid
non-self ids, regenerate the leaf set with `mergeLeaves` and merge the ids
into the routing matrix. -/
def merge (L N b W self : Nat) (t : Table) (s : StateMsg) : Option Table :=
  let ids := extractIds self s.Addrs
  match mergeLeaves L N self t.leaves ids with
  | none => none
  | some lv => some ⟨lv, mergeRoutes b W self t.routes ids⟩

/-! ## Revocation -/

/-- `sortext.BigInts`: plain ascending sort of ids. -/
def sortNat (l : List Nat) : List Nat :=
  l.insertionSort (· ≤ ·)

/-- `sortext.SearchBigInts(a, x)`: `sort.Search` with predicate
`a[i].Cmp(x) >= 0`.  On an ascending-sorted slice the binary search returns
the first index `i` with `x ≤ a[i]` (or `len(a)`), which is what `findIdx`
computes. -/
def searchBigInts (a : List Nat) (x : Nat) : Nat :=
  a.findIdx (fun y => x ≤ y)

/-- The sorted-membership idiom of `revoke`:
`idx := SearchBigInts(downs, v); idx < len(downs) && downs[idx].Cmp(v) == 0`. -/
def containsSorted (a : List Nat) (x : Nat) : Bool :=
  searchBigInts a x < a.length && a.getD (searchBigInts a x) 0 == x

/-- The leaf-cleanup loop of `revoke`, fuel-indexed so that the kernel can
evaluate it: at position `i`, a leaf found among `dn` is overwritten with the
last leaf, the slice shrinks by one and the same position is re-examined
(`i--` in the Go loop); otherwise move right.  The fuel `l.length - i + 1`
bounds the number of iterations, so the `fuel = 0` branch is unreachable from
`swapRemove`. -/
def swapRemoveGo (dn : List Nat) : Nat → List Nat → Nat → List Nat
  | 0, l, _ => l
  | fuel + 1, l, i =>
    if h : i < l.length then
      if containsSorted dn (l.get ⟨i, h⟩) then
        swapRemoveGo dn fuel
          ((l.set i (l.getLast (List.length_pos.mp (Nat.lt_of_le_of_lt (Nat.zero_le i) h)))).dropLast) i
      else
        swapRemoveGo dn fuel l (i + 1)
    else l

/-- The complete leaf-cleanup loop of `revoke`, started at position `0`. -/
def swapRemove (dn l : List Nat) : List Nat :=
  swapRemoveGo dn (l.length + 1) l 0

/-- The routing-matrix cleanup of `revoke`: every cell holding a revoked id is
cleared and then refilled with the first pool peer whose prefix coordinates
match the cell (or left empty when there is none). -/
def revokeRoutes (b W self : Nat) (pool dn : List Nat)
    (routes : Nat → Nat → Option Nat) : Nat → Nat → Option Nat :=
  fun r c =>
    match routes r c with
    | none => none
    | some id =>
      if containsSorted dn id then
        pool.find? (fun p => prefixRC b W self p == (r, c))
      else some id

/-- `revoke` from `proto/overlay/maintenance.go`: sort the down list, remove
revoked leaves (swap-with-last loop), backfill the leaf set from the
connection pool when it shrank, and repair revoked routing cells from the
pool.  `pool` is the list of node ids of `o.pool`.  Returns `none` when the
backfilling `mergeLeaves` runs out of range. -/
def revoke (L N b W self : Nat) (pool : List Nat) (t : Table)
    (downs : List Nat) : Option Table :=
  let dn := sortNat downs
  let leaves₁ := swapRemove dn t.leaves
  let intact := t.leaves.all (fun x => !containsSorted dn x)
  let leavesOpt := if intact then some leaves₁ else mergeLeaves L N self leaves₁ pool
  match leavesOpt with
  | none => none
  | some lv => some ⟨lv, revokeRoutes b W self pool dn t.routes⟩

/-! ## Change detection -/

/-- `changed` from `proto/overlay/maintenance.go`: `old` is the live table
`o.routes`, `nw` the shadow candidate; the matrix loops run over the
`rows × base` cell grid.  Returns `(ch, rep)`: whether anything differs, and
whether some cell that was non-empty in the live table is empty in the
candidate. -/
def changed (rows base : Nat) (old nw : Table) : Bool × Bool :=
  let chLeaves :=
    nw.leaves.length != old.leaves.length
      || (List.range nw.leaves.length).any
           (fun i => nw.leaves.getD i 0 != old.leaves.getD i 0)
  let chRoutes :=
    (List.range rows).any fun r =>
      (List.range base).any fun c => nw.routes r c != old.routes r c
  let rep :=
    (List.range rows).any fun r =>
      (List.range base).any fun c =>
        (nw.routes r c).isNone && (old.routes r c).isSome
  (chLeaves || chRoutes, rep)

/-! ## Beater -/

/-- `active` from `proto/overlay/maintenance.go`: a peer id is active when it
appears in the live leaf set or in some routing cell. -/
def active (rows base : Nat) (t : Table) (p : Nat) : Bool :=
  t.leaves.any (fun id => p == id)
    || (List.range rows).any fun r =>
         (List.range base).any fun c =>
           match t.routes r c with
           | some id => p == id
           | none => false

/-- `sendBeat` from `proto/overlay/messaging.go`: the heartbeat state record
carries only the `Updated` epoch and the `Passive` tag. -/
def sendBeat (time : Nat) (passive : Bool) : StateMsg :=
  { Addrs := [], Updated := time, Repair := false, Passive := passive }

/-- The per-peer heartbeat sent by the `beater` loop of
`proto/overlay/maintenance.go`: `o.sendBeat(p, !o.active(p.nodeId))`. -/
def beaterMsg (rows base : Nat) (time : Nat) (t : Table) (p : Nat) : StateMsg :=
  sendBeat time (!active rows base t p)

end Iris

/-! ## Heart (liveness monitor), from `heart/heart.go` -/

namespace Heart

/-- An entity monitored by the Heart (`heart/entity.go`, outside the extract;
modelled from the spec: `{ id, last_tick }`). -/
structure Entity where
  id : Nat
  tick : Nat
deriving DecidableEq, Repr

/-- The mutable fields of a `Heart` relevant to its tick accounting. -/
structure HeartState where
  mems : List Entity
  tick : Nat
  kill : Nat
deriving DecidableEq, Repr

/-- Sorting of the entity list by id (`sort.Sort(h.mems)`). -/
def sortEntities (l : List Entity) : List Entity :=
  l.insertionSort (fun m₁ m₂ => m₁.id ≤ m₂.id)

/-- `Monitor`: reject duplicates, else append a fresh entity carrying the
current tick and re-sort.  Modelled from the spec: the duplicate check is a
binary search over the id-sorted entity list (`entitySlice.Search`, outside
the extract), embedded as the equivalent membership scan. -/
def monitor (h : HeartState) (id : Nat) : Except String HeartState :=
  if h.mems.any (fun m => m.id == id) then .error "duplicate entry"
  else .ok { h with mems := sortEntities (h.mems ++ [{ id := id, tick := h.tick }]) }

/-- `Ping`: refresh the entity's last-seen tick to the current tick.  The
binary-search lookup is embedded as `findIdx?` (equivalent on the id-sorted
entity list). -/
def ping (h : HeartState) (id : Nat) : Except String HeartState :=
  match h.mems.findIdx? (fun m => m.id == id) with
  | some idx => .ok { h with mems := h.mems.set idx { id := id, tick := h.tick } }
  | none => .error "non-monitored entity"

/-- One beat cycle of the `beater` loop: increment the tick and collect, in
entity order, every id whose tick deficit reaches `kill`.  Returns the new
state and the collected dead list. -/
def beatCycle (h : HeartState) : HeartState × List Nat :=
  let tick' := h.tick + 1
  let dead := (h.mems.filter (fun m => h.kill ≤ tick' - m.tick)).map (·.id)
  ({ h with tick := tick' }, dead)

/-- Iterated beat cycles (state only). -/
def runCycles (h : HeartState) : Nat → HeartState
  | 0 => h
  | n + 1 => (beatCycle (runCycles h n)).1

/-- The dead list collected by beat cycle `n + 1` (counting from state `h`). -/
def deadListAt (h : HeartState) (n : Nat) : List Nat :=
  (beatCycle (runCycles h n)).2

/-- Observable actions of one iteration of the `beater` loop body, in program
order: the mutex acquisition and release around the tick accounting, then the
callback invocations. -/
inductive HeartEvent where
  | lockAcquire
  | lockRelease
  | beat
  | dead (id : Nat)
deriving DecidableEq, Repr

/-- The action trace of one beat cycle: `h.lock.Lock()`, the accounting,
`h.lock.Unlock()`, then `h.call.Beat()` and one `h.call.Dead(id)` per
collected id, in collection order. -/
def beatTrace (h : HeartState) : List HeartEvent :=
  [HeartEvent.lockAcquire, HeartEvent.lockRelease, HeartEvent.beat]
    ++ (beatCycle h).2.map HeartEvent.dead

/-- Whether an event is a callback invocation. -/
def isCallback : HeartEvent → Bool
  | HeartEvent.beat => true
  | HeartEvent.dead _ => true
  | _ => false

/-- The id of a `dead` callback event. -/
def deadId? : HeartEvent → Option Nat
  | HeartEvent.dead id => some id
  | _ => none

end Heart

namespace Iris

/-! ## Lemmas about the circular key and the leaf-set pipeline -/

/-- On the valid id space `[0, N)` the circular key anchored at `self` is
injective. -/
lemma circKey_inj {N self : Nat} (hself : self < N) {u v : Nat}
    (hu : u < N) (hv : v < N)
    (h : circKey N self u = circKey N self v) : u = v := by
  unfold circKey at h
  rw [Nat.mod_eq_of_lt hself] at h
  have hu' : u + N - self = u + (N - self) := by omega
  have hv' : v + N - self = v + (N - self) := by omega
  rw [hu', hv'] at h
  have hmod : u ≡ v [MOD N] := Nat.ModEq.add_right_cancel' (N - self) h
  have h2 : u % N = v % N := hmod
  rwa [Nat.mod_eq_of_lt hu, Nat.mod_eq_of_lt hv] at h2

lemma sortByKey_perm (key : Nat → Nat) (l : List Nat) :
    (sortByKey key l).Perm l :=
  List.perm_insertionSort (keyLe key) l

lemma sortByKey_sorted (key : Nat → Nat) (l : List Nat) :
    (sortByKey key l).Sorted (keyLe key) :=
  List.sorted_insertionSort (keyLe key) l

/-- Two permuted lists with pointwise injective images and equal image lists
are equal. -/
lemma eq_of_perm_of_map_eq {f : Nat → Nat} :
    ∀ {l₁ l₂ : List Nat}, l₁.Perm l₂ →
      (∀ x ∈ l₁, ∀ y ∈ l₂, f x = f y → x = y) →
      l₁.map f = l₂.map f → l₁ = l₂ := by
  intro l₁
  induction l₁ with
  | nil =>
    intro l₂ hp _ _
    exact hp.nil_eq
  | cons a t₁ ih =>
    intro l₂ hp hinj hmap
    cases l₂ with
    | nil => exact absurd hp.length_eq (by simp)
    | cons b t₂ =>
      simp only [List.map_cons, List.cons.injEq] at hmap
      have hab : a = b := hinj a (by simp) b (by simp) hmap.1
      subst hab
      have ht : t₁.Perm t₂ := hp.cons_inv
      have : t₁ = t₂ := by
        refine ih ht ?_ hmap.2
        intro x hx y hy
        exact hinj x (by simp [hx]) y (by simp [hy])
      rw [this]

lemma dedupAux_nil (key : Nat → Nat) (x : Nat) : dedupAux key x [] = [x] := rfl

lemma dedupAux_cons (key : Nat → Nat) (x y : Nat) (r : List Nat) :
    dedupAux key x (y :: r) =
      if key x = key y then dedupAux key x r else x :: dedupAux key y r := rfl

lemma mem_dedupAux_sub (key : Nat → Nat) :
    ∀ (rest : List Nat) (x z : Nat), z ∈ dedupAux key x rest → z = x ∨ z ∈ rest := by
  intro rest
  induction rest with
  | nil => intro x z hz; simpa [dedupAux_nil] using hz
  | cons y r ih =>
    intro x z hz
    rw [dedupAux_cons] at hz
    by_cases h : key x = key y
    · rw [if_pos h] at hz
      rcases ih x z hz with h' | h'
      · exact Or.inl h'
      · exact Or.inr (by simp [h'])
    · rw [if_neg h] at hz
      rcases List.mem_cons.mp hz with h' | h'
      · exact Or.inl h'
      · rcases ih y z h' with h'' | h''
        · exact Or.inr (by simp [h''])
        · exact Or.inr (by simp [h''])

lemma mem_dedupAux_iff (key : Nat → Nat) :
    ∀ (rest : List Nat) (x z : Nat),
      (∀ u ∈ x :: rest, ∀ v ∈ x :: rest, key u = key v → u = v) →
      (z ∈ dedupAux key x rest ↔ z ∈ x :: rest) := by
  intro rest
  induction rest with
  | nil => intro x z _; simp [dedupAux_nil]
  | cons y r ih =>
    intro x z hinj
    rw [dedupAux_cons]
    by_cases h : key x = key y
    · have hxy : x = y := hinj x (by simp) y (by simp) h
      subst hxy
      rw [if_pos h]
      have hinj' : ∀ u ∈ x :: r, ∀ v ∈ x :: r, key u = key v → u = v := by
        intro u hu v hv
        refine hinj u ?_ v ?_
        · rcases List.mem_cons.mp hu with h' | h'
          · exact h' ▸ List.mem_cons_self _ _
          · exact List.mem_cons_of_mem _ (List.mem_cons_of_mem _ h')
        · rcases List.mem_cons.mp hv with h' | h'
          · exact h' ▸ List.mem_cons_self _ _
          · exact List.mem_cons_of_mem _ (List.mem_cons_of_mem _ h')
      rw [ih x z hinj']
      simp
    · rw [if_neg h]
      have hinj' : ∀ u ∈ y :: r, ∀ v ∈ y :: r, key u = key v → u = v := by
        intro u hu v hv
        exact hinj u (List.mem_cons_of_mem _ hu) v (List.mem_cons_of_mem _ hv)
      rw [List.mem_cons, ih y z hinj']
      simp

lemma dedupAux_pairwise_lt (key : Nat → Nat) :
    ∀ (rest : List Nat) (x : Nat), (x :: rest).Sorted (keyLe key) →
      (dedupAux key x rest).Pairwise (fun u v => key u < key v) := by
  intro rest
  induction rest with
  | nil => intro x _; simp [dedupAux_nil]
  | cons y r ih =>
    intro x hs
    rw [List.sorted_cons] at hs
    obtain ⟨hx, hyr⟩ := hs
    rw [dedupAux_cons]
    by_cases h : key x = key y
    · rw [if_pos h]
      refine ih x ?_
      rw [List.sorted_cons]
      exact ⟨fun b hb => hx b (by simp [hb]), (List.sorted_cons.mp hyr).2⟩
    · rw [if_neg h]
      refine List.pairwise_cons.mpr ⟨?_, ih y hyr⟩
      intro z hz
      have hxy : key x < key y :=
        Nat.lt_of_le_of_ne (hx y (by simp)) h
      rcases mem_dedupAux_sub key r y z hz with h' | h'
      · exact h' ▸ hxy
      · exact Nat.lt_of_lt_of_le hxy ((List.sorted_cons.mp hyr).1 z h')

lemma dedupConsec_subset (key : Nat → Nat) (l : List Nat) :
    ∀ z ∈ dedupConsec key l, z ∈ l := by
  cases l with
  | nil => simp [dedupConsec]
  | cons x rest =>
    intro z hz
    rcases mem_dedupAux_sub key rest x z hz with h | h
    · simp [h]
    · simp [h]

lemma mem_dedupConsec_iff (key : Nat → Nat) (l : List Nat)
    (hinj : ∀ u ∈ l, ∀ v ∈ l, key u = key v → u = v) (z : Nat) :
    z ∈ dedupConsec key l ↔ z ∈ l := by
  cases l with
  | nil => simp [dedupConsec]
  | cons x rest => exact mem_dedupAux_iff key rest x z hinj

lemma dedupConsec_pairwise_lt (key : Nat → Nat) (l : List Nat)
    (hs : l.Sorted (keyLe key)) :
    (dedupConsec key l).Pairwise (fun u v => key u < key v) := by
  cases l with
  | nil => simp [dedupConsec]
  | cons x rest => exact dedupAux_pairwise_lt key rest x hs

lemma dedupConsec_nodup (key : Nat → Nat) (l : List Nat)
    (hs : l.Sorted (keyLe key)) : (dedupConsec key l).Nodup := by
  have h := dedupConsec_pairwise_lt key l hs
  exact h.imp (fun hlt => fun heq => by subst heq; exact Nat.lt_irrefl _ hlt)

lemma findOrigin_isSome_iff (self : Nat) (l : List Nat) :
    (findOrigin self l).isSome ↔ self ∈ l := by
  induction l with
  | nil => simp [findOrigin]
  | cons x rest ih =>
    by_cases h : x = self
    · simp [findOrigin, h]
    · simp only [findOrigin, if_neg h, List.mem_cons]
      cases hr : findOrigin self rest with
      | none => simp [hr] at ih ⊢; simpa [Ne.symm h] using ih
      | some o => simp [hr] at ih ⊢; simp [ih]

lemma findOrigin_spec (self : Nat) :
    ∀ (l : List Nat) (o : Nat), findOrigin self l = some o →
      ∃ h : o < l.length, l.get ⟨o, h⟩ = self := by
  intro l
  induction l with
  | nil => intro o h; simp [findOrigin] at h
  | cons x rest ih =>
    intro o h
    by_cases hx : x = self
    · simp only [findOrigin, if_pos hx, Option.some.injEq] at h
      subst h
      exact ⟨by simp, hx⟩
    · simp only [findOrigin, if_neg hx, Option.map_eq_some'] at h
      obtain ⟨o', ho', rfl⟩ := h
      obtain ⟨hlt, hget⟩ := ih o' ho'
      exact ⟨by simpa using Nat.succ_lt_succ hlt, by simpa using hget⟩

/-! ## Lemmas about `mergeLeaves` -/

lemma circKey_injOn {N self : Nat} (hself : self < N) (l : List Nat)
    (hl : ∀ x ∈ l, x < N) :
    ∀ u ∈ l, ∀ v ∈ l, circKey N self u = circKey N self v → u = v :=
  fun u hu v hv h => circKey_inj hself (hl u hu) (hl v hv) h

/-- The deduplicated circularly sorted concatenation computed inside
`mergeLeaves`. -/
def leafCandidates (N self : Nat) (a b : List Nat) : List Nat :=
  dedupConsec (circKey N self) (sortByKey (circKey N self) (a ++ b))

lemma mergeLeaves_def (L N self : Nat) (a b : List Nat) :
    mergeLeaves L N self a b =
      match findOrigin self (leafCandidates N self a b) with
      | none => none
      | some origin =>
        some (((leafCandidates N self a b).drop (max 0 (origin - L / 2))).take
          (min (leafCandidates N self a b).length (origin + L / 2) -
            max 0 (origin - L / 2))) := rfl

lemma leafCandidates_subset (N self : Nat) (a b : List Nat) :
    ∀ z ∈ leafCandidates N self a b, z ∈ a ++ b := fun z hz =>
  (sortByKey_perm (circKey N self) (a ++ b)).mem_iff.mp
    (dedupConsec_subset (circKey N self) _ z hz)

lemma mem_leafCandidates_iff (N self : Nat) (a b : List Nat)
    (hself : self < N) (hmem : ∀ x ∈ a ++ b, x < N) (z : Nat) :
    z ∈ leafCandidates N self a b ↔ z ∈ a ++ b := by
  unfold leafCandidates
  rw [mem_dedupConsec_iff _ _
    (circKey_injOn hself _
      (fun x hx => hmem x ((sortByKey_perm (circKey N self) (a ++ b)).mem_iff.mp hx)))]
  exact (sortByKey_perm (circKey N self) (a ++ b)).mem_iff

lemma leafCandidates_nodup (N self : Nat) (a b : List Nat) :
    (leafCandidates N self a b).Nodup :=
  dedupConsec_nodup _ _ (sortByKey_sorted (circKey N self) (a ++ b))

/-- Totality of the origin scan: `mergeLeaves` returns a window exactly when
`self` occurs in the concatenated input. -/
lemma mergeLeaves_isSome_iff (L N self : Nat) (a b : List Nat)
    (hself : self < N) (hmem : ∀ x ∈ a ++ b, x < N) :
    (mergeLeaves L N self a b).isSome = true ↔ self ∈ a ++ b := by
  rw [mergeLeaves_def]
  rw [← mem_leafCandidates_iff N self a b hself hmem self]
  rw [← findOrigin_isSome_iff self (leafCandidates N self a b)]
  cases findOrigin self (leafCandidates N self a b) <;> simp

/-- Every id in the returned window comes from the concatenated input. -/
lemma mergeLeaves_subset (L N self : Nat) (a b : List Nat) (l : List Nat)
    (h : mergeLeaves L N self a b = some l) : ∀ z ∈ l, z ∈ a ++ b := by
  rw [mergeLeaves_def] at h
  cases ho : findOrigin self (leafCandidates N self a b) with
  | none => rw [ho] at h; exact absurd h (by simp)
  | some origin =>
    rw [ho] at h
    simp only [Option.some.injEq] at h
    subst h
    intro z hz
    exact leafCandidates_subset N self a b z
      (List.drop_subset _ _ (List.take_subset _ _ hz))

/-- The returned window has length at most `OverlayLeaves`. -/
lemma mergeLeaves_length (L N self : Nat) (a b : List Nat) (l : List Nat)
    (h : mergeLeaves L N self a b = some l) : l.length ≤ L := by
  rw [mergeLeaves_def] at h
  cases ho : findOrigin self (leafCandidates N self a b) with
  | none => rw [ho] at h; exact absurd h (by simp)
  | some origin =>
    rw [ho] at h
    simp only [Option.some.injEq] at h
    subst h
    have h1 : min (leafCandidates N self a b).length (origin + L / 2) ≤ origin + L / 2 :=
      Nat.min_le_right _ _
    have h2 : origin - L / 2 ≤ max 0 (origin - L / 2) := Nat.le_max_right _ _
    have h3 := List.length_take
      (min (leafCandidates N self a b).length (origin + L / 2) - max 0 (origin - L / 2))
      ((leafCandidates N self a b).drop (max 0 (origin - L / 2)))
    omega

/-- The returned window always contains `self` (when `OverlayLeaves ≥ 2`). -/
lemma mergeLeaves_self_mem (L N self : Nat) (a b : List Nat) (l : List Nat)
    (hL : 2 ≤ L) (h : mergeLeaves L N self a b = some l) : self ∈ l := by
  rw [mergeLeaves_def] at h
  cases ho : findOrigin self (leafCandidates N self a b) with
  | none => rw [ho] at h; exact absurd h (by simp)
  | some origin =>
    rw [ho] at h
    simp only [Option.some.injEq] at h
    subst h
    obtain ⟨hlt, hget⟩ := findOrigin_spec self _ origin ho
    set res := leafCandidates N self a b with hres
    set lo := max 0 (origin - L / 2) with hlo
    set hi := min res.length (origin + L / 2) with hhi
    have hlo' : lo ≤ origin := by omega
    have hhi' : origin < hi := by
      have : 1 ≤ L / 2 := by omega
      omega
    have hidx : origin - lo < (res.drop lo).length := by
      rw [List.length_drop]
      omega
    have hidx2 : origin - lo < hi - lo := by omega
    have hgetwin : ((res.drop lo).take (hi - lo)).get
        ⟨origin - lo, by rw [List.length_take]; exact lt_min hidx2 hidx⟩ = self := by
      rw [List.get_eq_getElem]
      rw [List.getElem_take]
      rw [List.getElem_drop]
      have : lo + (origin - lo) = origin := by omega
      simp_rw [this]
      rw [← hget]
      simp
    rw [← hgetwin]
    exact List.get_mem _ _ _

/-- The returned window has pairwise distinct ids. -/
lemma mergeLeaves_nodup (L N self : Nat) (a b : List Nat) (l : List Nat)
    (h : mergeLeaves L N self a b = some l) : l.Nodup := by
  rw [mergeLeaves_def] at h
  cases ho : findOrigin self (leafCandidates N self a b) with
  | none => rw [ho] at h; exact absurd h (by simp)
  | some origin =>
    rw [ho] at h
    simp only [Option.some.injEq] at h
    subst h
    exact ((List.take_sublist _ _).trans (List.drop_sublist _ _)).nodup
      (leafCandidates_nodup N self a b)

/-- `mergeLeaves` treats its two arguments symmetrically. -/
lemma mergeLeaves_comm (L N self : Nat) (a b : List Nat)
    (hself : self < N) (hmem : ∀ x ∈ a ++ b, x < N) :
    mergeLeaves L N self a b = mergeLeaves L N self b a := by
  have hmem' : ∀ x ∈ b ++ a, x < N := by
    intro x hx
    refine hmem x ?_
    rw [List.mem_append] at hx ⊢
    exact hx.symm
  have hkey : sortByKey (circKey N self) (a ++ b) = sortByKey (circKey N self) (b ++ a) := by
    have hperm : (sortByKey (circKey N self) (a ++ b)).Perm
        (sortByKey (circKey N self) (b ++ a)) :=
      ((sortByKey_perm _ _).trans List.perm_append_comm).trans
        (sortByKey_perm _ _).symm
    refine eq_of_perm_of_map_eq (f := circKey N self) hperm ?_ ?_
    · intro x hx y hy hxy
      refine circKey_inj hself
        (hmem x ((sortByKey_perm _ _).mem_iff.mp hx))
        (hmem' y ((sortByKey_perm _ _).mem_iff.mp hy)) hxy
    · refine List.eq_of_perm_of_sorted (r := fun x y : Nat => x ≤ y)
        (hperm.map (circKey N self)) ?_ ?_
      · exact List.Pairwise.map (circKey N self) (fun _ _ hab => hab)
          (sortByKey_sorted (circKey N self) (a ++ b))
      · exact List.Pairwise.map (circKey N self) (fun _ _ hab => hab)
          (sortByKey_sorted (circKey N self) (b ++ a))
  rw [mergeLeaves_def, mergeLeaves_def]
  unfold leafCandidates
  rw [hkey]

/-! ## Lemmas about `mergeRoutes` -/

/-- Occupied cells are never overwritten by a merge. -/
lemma mergeRoutes_keep (b W self : Nat) :
    ∀ (ids : List Nat) (rt : Nat → Nat → Option Nat) (r c y : Nat),
      rt r c = some y → mergeRoutes b W self rt ids r c = some y := by
  intro ids
  induction ids with
  | nil => intro rt r c y h; exact h
  | cons id rest ih =>
    intro rt r c y h
    refine ih _ r c y ?_
    unfold mergeStep
    by_cases hrc : (r, c) = prefixRC b W self id
    · rw [if_pos hrc]
      have h' : rt (prefixRC b W self id).1 (prefixRC b W self id).2 = some y := by
        rw [← hrc]; exact h
      simp only [h']
    · rw [if_neg hrc]
      exact h

/-- An empty cell receives the first merged id whose prefix coordinates are
the cell's (and stays empty when there is none). -/
lemma mergeRoutes_fill (b W self : Nat) :
    ∀ (ids : List Nat) (rt : Nat → Nat → Option Nat) (r c : Nat),
      rt r c = none →
      mergeRoutes b W self rt ids r c =
        ids.find? (fun id => prefixRC b W self id == (r, c)) := by
  intro ids
  induction ids with
  | nil => intro rt r c h; exact h
  | cons id rest ih =>
    intro rt r c h
    by_cases hrc : prefixRC b W self id = (r, c)
    · rw [List.find?_cons_of_pos _ (by simp [hrc])]
      refine mergeRoutes_keep b W self rest _ r c id ?_
      unfold mergeStep
      rw [if_pos hrc.symm]
      have h' : rt (prefixRC b W self id).1 (prefixRC b W self id).2 = none := by
        rw [hrc]; exact h
      simp only [h']
    · rw [List.find?_cons_of_neg _ (by simp [hrc])]
      refine (ih _ r c ?_)
      unfold mergeStep
      rw [if_neg (fun he => hrc he.symm)]
      exact h

/-- The invariant (I1)/(I2) on the routing matrix: every occupied cell holds
an id sitting at its own prefix coordinates, and never `self`. -/
def RoutesInv (b W self : Nat) (rt : Nat → Nat → Option Nat) : Prop :=
  ∀ r c y, rt r c = some y → prefixRC b W self y = (r, c) ∧ y ≠ self

lemma mergeRoutes_inv (b W self : Nat) :
    ∀ (ids : List Nat) (rt : Nat → Nat → Option Nat),
      RoutesInv b W self rt → (∀ i ∈ ids, i ≠ self) →
      RoutesInv b W self (mergeRoutes b W self rt ids) := by
  intro ids
  induction ids with
  | nil => intro rt hinv _; exact hinv
  | cons id rest ih =>
    intro rt hinv hids
    refine ih _ ?_ (fun i hi => hids i (List.mem_cons_of_mem _ hi))
    intro r c y h
    unfold mergeStep at h
    by_cases hrc : (r, c) = prefixRC b W self id
    · rw [if_pos hrc] at h
      cases hcell : rt (prefixRC b W self id).1 (prefixRC b W self id).2 with
      | none =>
        simp only [hcell, Option.some.injEq] at h
        rw [← h]
        exact ⟨hrc.symm, hids id (by simp)⟩
      | some old =>
        simp only [hcell, Option.some.injEq] at h
        have hcell' : rt r c = some old := by
          have h1 : r = (prefixRC b W self id).1 := congrArg Prod.fst hrc
          have h2 : c = (prefixRC b W self id).2 := congrArg Prod.snd hrc
          rw [h1, h2]
          exact hcell
        rw [← h]
        exact hinv r c old hcell'
    · rw [if_neg hrc] at h
      exact hinv r c y h

/-- Ids coming out of the extraction loop of `merge` are never `self`. -/
lemma extractIds_ne_self (self : Nat) (entries : List (Option Nat × List String)) :
    ∀ i ∈ extractIds self entries, i ≠ self := by
  intro i hi
  unfold extractIds at hi
  rw [List.mem_filterMap] at hi
  obtain ⟨⟨fst, snd⟩, _, he⟩ := hi
  cases fst with
  | none => exact absurd he (by simp)
  | some id =>
    dsimp only at he
    by_cases hne : self ≠ id
    · rw [if_pos hne] at he
      simp only [Option.some.injEq] at he
      subst he
      exact fun h => hne h.symm
    · rw [if_neg hne] at he
      exact absurd he (by simp)

/-- The prefix invariant makes occupied cells pairwise distinct: one id can
occupy at most one cell. -/
lemma routesInv_cell_unique (b W self : Nat) (rt : Nat → Nat → Option Nat)
    (hinv : RoutesInv b W self rt) :
    ∀ r c r' c' y, rt r c = some y → rt r' c' = some y → r = r' ∧ c = c' := by
  intro r c r' c' y h h'
  have h1 := (hinv r c y h).1
  have h2 := (hinv r' c' y h').1
  rw [h1] at h2
  exact ⟨congrArg Prod.fst h2, congrArg Prod.snd h2⟩

/-! ## Claims about `mergeLeaves` and `merge` -/

/-- C8: `merge_leaves(a, b)` and `merge_leaves(b, a)` coincide (proved here as
list equality, which is stronger than equality as sets), and every returned
leaf window has length at most `OverlayLeaves = L`; `self` and the ids are
required to be valid fixed-width ids, i.e. below the id-space modulus `N`. -/
theorem mergeLeaves_comm_and_bounded (L N self : Nat) (a b : List Nat)
    (hself : self < N) (hmem : ∀ x ∈ a ++ b, x < N) :
    mergeLeaves L N self a b = mergeLeaves L N self b a ∧
      ∀ l, mergeLeaves L N self a b = some l → l.length ≤ L :=
  ⟨mergeLeaves_comm L N self a b hself hmem,
   fun l h => mergeLeaves_length L N self a b l h⟩

theorem mergeLeaves_comm_and_bounded_witness :
    mergeLeaves 4 16 5 [5, 9, 2] [2, 11] = mergeLeaves 4 16 5 [2, 11] [5, 9, 2] :=
  (mergeLeaves_comm_and_bounded 4 16 5 [5, 9, 2] [2, 11] (by decide) (by decide)).1

/-- C10: the origin-search loop of `mergeLeaves` stays in bounds — and hence
the function returns a window — exactly when the local id `self` occurs in
the concatenation of the two input lists; for inputs lacking `self` the scan
indexes past the end of the deduplicated slice (the `none` branch). -/
theorem mergeLeaves_total_iff_self_mem (L N self : Nat) (a b : List Nat)
    (hself : self < N) (hmem : ∀ x ∈ a ++ b, x < N) :
    (mergeLeaves L N self a b).isSome = true ↔ self ∈ a ++ b :=
  mergeLeaves_isSome_iff L N self a b hself hmem

theorem mergeLeaves_total_iff_self_mem_witness :
    (mergeLeaves 4 16 5 [9, 5] [2]).isSome = true :=
  (mergeLeaves_total_iff_self_mem 4 16 5 [9, 5] [2] (by decide) (by decide)).mpr
    (by decide)

/-- C1 counterexample: `mergeLeaves` does return lists containing `self` —
already on the initial leaf set `[self]` the returned window is `[self]`
(here `self = 5`, `L = 4`, `N = 16`), contradicting "merge_leaves never
returns a list containing self". -/
theorem mergeLeaves_returns_self :
    mergeLeaves 4 16 5 [5] [] = some [5] ∧
      5 ∈ (mergeLeaves 4 16 5 [5] []).getD [] := by
  constructor
  · rfl
  · decide

/-- C4: when a received state is merged, each cell of the routing matrix
keeps its incumbent if it had one (the arriving id is discarded), and an
empty cell receives the first valid non-self id of the state whose prefix
coordinates are that cell (staying empty when no arriving id maps there). -/
theorem merge_cell_behavior (L N b W self : Nat) (t : Table) (s : StateMsg)
    (t' : Table) (h : merge L N b W self t s = some t') (r c : Nat) :
    (∀ y, t.routes r c = some y → t'.routes r c = some y) ∧
    (t.routes r c = none →
      t'.routes r c =
        (extractIds self s.Addrs).find? (fun id => prefixRC b W self id == (r, c))) := by
  replace h : (match mergeLeaves L N self t.leaves (extractIds self s.Addrs) with
      | none => none
      | some lv =>
        some (⟨lv, mergeRoutes b W self t.routes (extractIds self s.Addrs)⟩ : Table))
      = some t' := h
  cases hml : mergeLeaves L N self t.leaves (extractIds self s.Addrs) with
  | none => rw [hml] at h; exact absurd h (by simp)
  | some lv =>
    rw [hml] at h
    simp only [Option.some.injEq] at h
    subst h
    constructor
    · intro y hy
      exact mergeRoutes_keep b W self _ t.routes r c y hy
    · intro he
      exact mergeRoutes_fill b W self _ t.routes r c he

/-- Fixtures for the `merge_cell_behavior` witness: the empty-routes table of
a freshly booted node `5`, a state announcing node `9`, and the expected
merged table. -/
def wTable : Table :=
  { leaves := [5], routes := fun _ _ => none }

def wState : StateMsg :=
  { Addrs := [(some 9, ["addr"])], Updated := 0, Repair := false, Passive := false }

def wTable' : Table :=
  { leaves := [5, 9], routes := mergeRoutes 2 4 5 (fun _ _ => none) [9] }

theorem merge_cell_behavior_witness : wTable'.routes 0 1 = some 9 := by
  have h := (merge_cell_behavior 4 16 2 4 5 wTable wState wTable' (by rfl) 0 1).2 (by rfl)
  rw [h]
  rfl

/-! ## Claims about `changed` and the beater -/

/-- C5: the repair flag of `changed` is set exactly when some in-bounds cell
is empty in the new (shadow) table while non-empty in the old (live) one. -/
theorem changed_repair_iff (rows base : Nat) (old nw : Table) :
    (changed rows base old nw).2 = true ↔
      ∃ r < rows, ∃ c < base, nw.routes r c = none ∧ old.routes r c ≠ none := by
  unfold changed
  simp only [List.any_eq_true, List.mem_range, Bool.and_eq_true,
    Option.isNone_iff_eq_none, Option.isSome_iff_ne_none]

/-- A cell-membership test used by `active`. -/
lemma cellHit_iff (o : Option Nat) (p : Nat) :
    (match o with | some id => p == id | none => false) = true ↔ o = some p := by
  cases o with
  | none => simp
  | some id =>
    simp only [beq_iff_eq, Option.some.injEq]
    exact eq_comm

lemma active_eq_true_iff (rows base : Nat) (t : Table) (p : Nat) :
    active rows base t p = true ↔
      p ∈ t.leaves ∨ ∃ r < rows, ∃ c < base, t.routes r c = some p := by
  unfold active
  rw [Bool.or_eq_true]
  simp only [List.any_eq_true, List.mem_range, beq_iff_eq, cellHit_iff]
  constructor
  · rintro (⟨id, hid, rfl⟩ | ⟨r, hr, c, hc, h⟩)
    · exact Or.inl hid
    · exact Or.inr ⟨r, hr, c, hc, h⟩
  · rintro (hid | ⟨r, hr, c, hc, h⟩)
    · exact Or.inl ⟨p, hid, rfl⟩
    · exact Or.inr ⟨r, hr, c, hc, h⟩

/-- C9: the heartbeat sent by the beater to a pooled peer carries
`passive = true` exactly when the peer's id is in neither the live leaf set
nor any live routing cell, and a peer found in the leaf set always receives
`passive = false`. -/
theorem beater_passive_iff (rows base time : Nat) (t : Table) (p : Nat) :
    ((beaterMsg rows base time t p).Passive = true ↔
      (p ∉ t.leaves ∧ ∀ r < rows, ∀ c < base, t.routes r c ≠ some p)) ∧
    (p ∈ t.leaves → (beaterMsg rows base time t p).Passive = false) := by
  have hp : (beaterMsg rows base time t p).Passive = !active rows base t p := rfl
  constructor
  · rw [hp]
    rw [Bool.not_eq_true']
    rw [← Bool.not_eq_true]
    rw [active_eq_true_iff]
    constructor
    · intro h
      push_neg at h
      exact ⟨h.1, fun r hr c hc => h.2 r hr c hc⟩
    · intro h
      push_neg
      exact ⟨h.1, fun r hr c hc => h.2 r hr c hc⟩
  · intro hmem
    rw [hp]
    rw [Bool.not_eq_false']
    exact (active_eq_true_iff rows base t p).mpr (Or.inl hmem)

theorem beater_passive_iff_witness :
    (beaterMsg 4 2 0 wTable' 9).Passive = false :=
  (beater_passive_iff 4 2 0 wTable' 9).2 (show (9 : Nat) ∈ [5, 9] by decide)

/-! ## Lemmas about `revoke` -/

lemma sortNat_singleton (d : Nat) : sortNat [d] = [d] := rfl

lemma sortNat_sorted (l : List Nat) : (sortNat l).Sorted (· ≤ ·) :=
  List.sorted_insertionSort _ l

lemma sortNat_perm (l : List Nat) : (sortNat l).Perm l :=
  List.perm_insertionSort _ l

/-- On ascending-sorted input the binary-search membership idiom of `revoke`
decides membership. -/
lemma containsSorted_iff_mem :
    ∀ (a : List Nat), a.Sorted (· ≤ ·) → ∀ x, (containsSorted a x = true ↔ x ∈ a) := by
  intro a
  induction a with
  | nil => intro _ x; simp [containsSorted, searchBigInts]
  | cons y t ih =>
    intro hs x
    rw [List.sorted_cons] at hs
    obtain ⟨hy, ht⟩ := hs
    by_cases h : x ≤ y
    · unfold containsSorted searchBigInts
      rw [List.findIdx_cons]
      simp [h]
      constructor
      · intro h'
        exact Or.inl h'.symm
      · rintro (h' | h')
        · exact h'.symm
        · exact Nat.le_antisymm (hy x h') h
    · have hstep : containsSorted (y :: t) x = containsSorted t x := by
        unfold containsSorted searchBigInts
        rw [List.findIdx_cons]
        simp [h, List.getD_cons_succ]
      rw [hstep, ih ht x]
      have hxy : ¬ x = y := by omega
      simp [hxy]

lemma containsSorted_sortNat_false (downs : List Nat) (x : Nat)
    (hx : x ∉ downs) : containsSorted (sortNat downs) x = false := by
  cases hb : containsSorted (sortNat downs) x with
  | false => rfl
  | true =>
    have hmem := (containsSorted_iff_mem (sortNat downs) (sortNat_sorted downs) x).mp hb
    exact absurd ((sortNat_perm downs).mem_iff.mp hmem) hx

lemma containsSorted_singleton_iff (d x : Nat) :
    containsSorted [d] x = true ↔ x = d := by
  unfold containsSorted searchBigInts
  rw [List.findIdx_cons, List.findIdx_nil]
  by_cases h : x ≤ d
  · simp [h]
    omega
  · simp [h]
    omega

lemma containsSorted_singleton_false (d x : Nat) (h : x ≠ d) :
    containsSorted [d] x = false := by
  cases hb : containsSorted [d] x with
  | false => rfl
  | true => exact absurd ((containsSorted_singleton_iff d x).mp hb) h

/-- Elements surviving the swap-with-last removal all come from the input. -/
lemma swapRemoveGo_subset (dn : List Nat) :
    ∀ (fuel : Nat) (l : List Nat) (i x : Nat), x ∈ swapRemoveGo dn fuel l i → x ∈ l := by
  intro fuel
  induction fuel with
  | zero => intro l i x h; exact h
  | succ fuel ih =>
    intro l i x h
    rw [swapRemoveGo] at h
    by_cases hi : i < l.length
    · rw [dif_pos hi] at h
      by_cases hc : containsSorted dn (l.get ⟨i, hi⟩) = true
      · rw [if_pos hc] at h
        have hx := ih _ i x h
        have hx2 := (List.dropLast_sublist _).subset hx
        rcases List.mem_or_eq_of_mem_set hx2 with h' | h'
        · exact h'
        · exact h' ▸ List.getLast_mem _
      · rw [if_neg hc] at h
        exact ih l (i + 1) x h
    · rw [dif_neg hi] at h
      exact h

/-- When nothing matches, the swap-with-last loop is the identity. -/
lemma swapRemoveGo_id (dn : List Nat) :
    ∀ (fuel : Nat) (l : List Nat) (i : Nat),
      (∀ x ∈ l, containsSorted dn x = false) → swapRemoveGo dn fuel l i = l := by
  intro fuel
  induction fuel with
  | zero => intro l i _; rfl
  | succ fuel ih =>
    intro l i hnone
    rw [swapRemoveGo]
    by_cases hi : i < l.length
    · rw [dif_pos hi]
      rw [hnone (l.get ⟨i, hi⟩) (List.get_mem _ _ _)]
      simp only [Bool.false_eq_true, if_false]
      exact ih l (i + 1) hnone
    · rw [dif_neg hi]

/-- Every element surviving the swap-with-last loop fails the membership
test, provided the positions before `i` already failed it and the fuel
dominates the remaining scan length. -/
lemma swapRemoveGo_not_mem (dn : List Nat) :
    ∀ (fuel : Nat) (l : List Nat) (i : Nat), l.length - i < fuel →
      (∀ j (hj : j < l.length), j < i → containsSorted dn (l.get ⟨j, hj⟩) = false) →
      ∀ x, x ∈ swapRemoveGo dn fuel l i → containsSorted dn x = false := by
  intro fuel
  induction fuel with
  | zero => intro l i hf; omega
  | succ fuel ih =>
    intro l i hf hpre x hx
    rw [swapRemoveGo] at hx
    by_cases hi : i < l.length
    · rw [dif_pos hi] at hx
      by_cases hc : containsSorted dn (l.get ⟨i, hi⟩) = true
      · rw [if_pos hc] at hx
        set last := l.getLast (List.length_pos.mp
          (Nat.lt_of_le_of_lt (Nat.zero_le i) hi)) with hlast
        have hlen : ((l.set i last).dropLast).length = l.length - 1 := by
          rw [List.length_dropLast, List.length_set]
        refine ih _ i ?_ ?_ x hx
        · omega
        · intro j hj hji
          have hjl : j < l.length := by omega
          have hji' : j ≠ i := by omega
          have hjd : j < (l.set i last).length - 1 := by
            rw [List.length_set]; omega
          have : ((l.set i last).dropLast).get ⟨j, hj⟩ = l.get ⟨j, hjl⟩ := by
            rw [List.get_eq_getElem, List.get_eq_getElem, List.getElem_dropLast,
              List.getElem_set_ne (Ne.symm hji')]
          rw [this]
          exact hpre j hjl hji
      · rw [if_neg hc] at hx
        refine ih l (i + 1) (by omega) ?_ x hx
        intro j hj hji
        by_cases hji' : j < i
        · exact hpre j hj hji'
        · have hji'' : j = i := by omega
          subst hji''
          cases hb : containsSorted dn (l.get ⟨j, hj⟩) with
          | false => rfl
          | true => exact absurd hb hc
    · rw [dif_neg hi] at hx
      obtain ⟨⟨j, hj⟩, hget⟩ := List.mem_iff_get.mp hx
      have := hpre j hj (by omega)
      rwa [hget] at this

/-- Replacing position `i` with the last element and dropping the tail keeps
every element other than the one removed. -/
lemma mem_setLast_dropLast {l : List Nat} {i : Nat} (hi : i < l.length) {x : Nat}
    (hx : x ∈ l) (hne : x ≠ l.get ⟨i, hi⟩) :
    x ∈ ((l.set i (l.getLast (List.length_pos.mp
      (Nat.lt_of_le_of_lt (Nat.zero_le i) hi)))).dropLast) := by
  set last := l.getLast (List.length_pos.mp
    (Nat.lt_of_le_of_lt (Nat.zero_le i) hi)) with hlastdef
  have hlast : last = l.get ⟨l.length - 1, by omega⟩ := by
    rw [hlastdef, List.getLast_eq_getElem, List.get_eq_getElem]
  obtain ⟨⟨j, hj⟩, hget⟩ := List.mem_iff_get.mp hx
  have hij : j ≠ i := by
    intro he
    subst he
    exact hne hget.symm
  by_cases hj' : j = l.length - 1
  · by_cases hi' : i = l.length - 1
    · exact absurd (hj'.trans hi'.symm) hij
    · subst hj'
      refine List.mem_iff_get.mpr ⟨⟨i, ?_⟩, ?_⟩
      · rw [List.length_dropLast, List.length_set]; omega
      · rw [List.get_eq_getElem, List.getElem_dropLast, List.getElem_set_self]
        rw [hlast, ← hget]
  · refine List.mem_iff_get.mpr ⟨⟨j, ?_⟩, ?_⟩
    · rw [List.length_dropLast, List.length_set]; omega
    · rw [List.get_eq_getElem, List.getElem_dropLast,
        List.getElem_set_ne (Ne.symm hij)]
      rw [List.get_eq_getElem] at hget
      exact hget

/-- Elements failing the membership test survive the swap-with-last loop. -/
lemma swapRemoveGo_mem (dn : List Nat) :
    ∀ (fuel : Nat) (l : List Nat) (i x : Nat), l.length - i < fuel →
      x ∈ l → containsSorted dn x = false → x ∈ swapRemoveGo dn fuel l i := by
  intro fuel
  induction fuel with
  | zero => intro l i x hf; omega
  | succ fuel ih =>
    intro l i x hf hx hc
    rw [swapRemoveGo]
    by_cases hi : i < l.length
    · rw [dif_pos hi]
      by_cases hcc : containsSorted dn (l.get ⟨i, hi⟩) = true
      · rw [if_pos hcc]
        have hne : x ≠ l.get ⟨i, hi⟩ := by
          intro he
          rw [← he] at hcc
          rw [hc] at hcc
          exact absurd hcc (by simp)
        refine ih _ i x ?_ (mem_setLast_dropLast hi hx hne) hc
        rw [List.length_dropLast, List.length_set]
        omega
      · rw [if_neg hcc]
        exact ih l (i + 1) x (by omega) hx hc
    · rw [dif_neg hi]
      exact hx

lemma swapRemove_mem_iff (dn l : List Nat) (x : Nat) :
    x ∈ swapRemove dn l ↔ x ∈ l ∧ containsSorted dn x = false := by
  unfold swapRemove
  constructor
  · intro h
    refine ⟨swapRemoveGo_subset dn _ l 0 x h, ?_⟩
    refine swapRemoveGo_not_mem dn _ l 0 (by omega) ?_ x h
    intro j hj hji
    omega
  · rintro ⟨h1, h2⟩
    exact swapRemoveGo_mem dn _ l 0 x (by omega) h1 h2

lemma swapRemove_id (dn l : List Nat)
    (h : ∀ x ∈ l, containsSorted dn x = false) : swapRemove dn l = l :=
  swapRemoveGo_id dn _ l 0 h

/-- Overwriting position `i` with the value of the last position and then
dropping the last position preserves distinctness: the surviving positions
carry the original values of pairwise distinct positions. -/
lemma nodup_set_dropLast (l : List Nat) (i : Nat) (hi : i < l.length)
    (hnd : l.Nodup) (a : Nat)
    (ha : ∀ h : l.length - 1 < l.length, a = l.get ⟨l.length - 1, h⟩) :
    ((l.set i a).dropLast).Nodup := by
  have hl : l.length - 1 < l.length := by omega
  have hinj := List.nodup_iff_injective_get.mp hnd
  rw [List.nodup_iff_injective_get]
  rintro ⟨j, hj⟩ ⟨k, hk⟩ heq
  have hlen : ((l.set i a).dropLast).length = l.length - 1 := by
    rw [List.length_dropLast, List.length_set]
  have hj' : j < l.length - 1 := by omega
  have hk' : k < l.length - 1 := by omega
  have gj : ((l.set i a).dropLast).get ⟨j, hj⟩ =
      if j = i then a else l.get ⟨j, by omega⟩ := by
    by_cases hji : j = i
    · subst hji
      rw [if_pos rfl, List.get_eq_getElem, List.getElem_dropLast,
        List.getElem_set_self]
    · rw [if_neg hji, List.get_eq_getElem, List.get_eq_getElem,
        List.getElem_dropLast, List.getElem_set_ne (Ne.symm hji)]
  have gk : ((l.set i a).dropLast).get ⟨k, hk⟩ =
      if k = i then a else l.get ⟨k, by omega⟩ := by
    by_cases hki : k = i
    · subst hki
      rw [if_pos rfl, List.get_eq_getElem, List.getElem_dropLast,
        List.getElem_set_self]
    · rw [if_neg hki, List.get_eq_getElem, List.get_eq_getElem,
        List.getElem_dropLast, List.getElem_set_ne (Ne.symm hki)]
  rw [gj, gk] at heq
  by_cases hji : j = i <;> by_cases hki : k = i
  · exact Fin.ext (show j = k by omega)
  · exfalso
    rw [if_pos hji, if_neg hki] at heq
    have hcomb := (ha hl).symm.trans heq
    have hfin := hinj hcomb
    simp only [Fin.mk.injEq] at hfin
    omega
  · exfalso
    rw [if_neg hji, if_pos hki] at heq
    have hcomb := (ha hl).symm.trans heq.symm
    have hfin := hinj hcomb
    simp only [Fin.mk.injEq] at hfin
    omega
  · rw [if_neg hji, if_neg hki] at heq
    have hfin := hinj heq
    simp only [Fin.mk.injEq] at hfin
    exact Fin.ext (show j = k from hfin)

/-- The swap-with-last removal loop preserves distinctness of the leaves. -/
lemma swapRemoveGo_nodup (dn : List Nat) :
    ∀ (fuel : Nat) (l : List Nat) (i : Nat), l.Nodup →
      (swapRemoveGo dn fuel l i).Nodup := by
  intro fuel
  induction fuel with
  | zero => intro l i h; exact h
  | succ fuel ih =>
    intro l i hnd
    rw [swapRemoveGo]
    by_cases hi : i < l.length
    · rw [dif_pos hi]
      by_cases hc : containsSorted dn (l.get ⟨i, hi⟩) = true
      · rw [if_pos hc]
        refine ih _ i ?_
        refine nodup_set_dropLast l i hi hnd _ ?_
        intro h
        rw [List.getLast_eq_getElem, List.get_eq_getElem]
      · rw [if_neg hc]
        exact ih l (i + 1) hnd
    · rw [dif_neg hi]
      exact hnd

lemma swapRemove_nodup (dn l : List Nat) (hnd : l.Nodup) :
    (swapRemove dn l).Nodup :=
  swapRemoveGo_nodup dn _ l 0 hnd

lemma revoke_def (L N b W self : Nat) (pool : List Nat) (t : Table)
    (downs : List Nat) :
    revoke L N b W self pool t downs =
      match (if t.leaves.all (fun x => !containsSorted (sortNat downs) x)
             then some (swapRemove (sortNat downs) t.leaves)
             else mergeLeaves L N self (swapRemove (sortNat downs) t.leaves) pool) with
      | none => none
      | some lv =>
        some ⟨lv, revokeRoutes b W self pool (sortNat downs) t.routes⟩ := rfl

/-- After revoking `[id]`, no routing cell holds `id`, provided `id` is not
in the connection pool (the pool is what refills repaired cells). -/
lemma revokeRoutes_not_down (b W self : Nat) (pool : List Nat) (id : Nat)
    (hpool : id ∉ pool) (rt : Nat → Nat → Option Nat) (r c : Nat) :
    revokeRoutes b W self pool [id] rt r c ≠ some id := by
  unfold revokeRoutes
  cases hcell : rt r c with
  | none => simp
  | some y =>
    dsimp only
    by_cases hc : containsSorted [id] y = true
    · rw [if_pos hc]
      cases hf : pool.find? (fun p => prefixRC b W self p == (r, c)) with
      | none => simp
      | some p =>
        have hp : p ∈ pool := List.mem_of_find?_eq_some hf
        intro he
        simp only [Option.some.injEq] at he
        exact hpool (he ▸ hp)
    · rw [if_neg hc]
      intro he
      simp only [Option.some.injEq] at he
      subst he
      exact hc ((containsSorted_singleton_iff y y).mpr rfl)

/-- The routing-matrix cleanup of `revoke` preserves the cell invariant: a
repaired cell is refilled only with a pool peer whose prefix coordinates are
the cell's, and the local node is never in the connection pool. -/
lemma revokeRoutes_inv (b W self : Nat) (pool dn : List Nat)
    (rt : Nat → Nat → Option Nat) (hpool : self ∉ pool)
    (hinv : RoutesInv b W self rt) :
    RoutesInv b W self (revokeRoutes b W self pool dn rt) := by
  intro r c y h
  unfold revokeRoutes at h
  cases hcell : rt r c with
  | none => rw [hcell] at h; exact absurd h (by simp)
  | some z =>
    rw [hcell] at h
    dsimp only at h
    by_cases hc : containsSorted dn z = true
    · rw [if_pos hc] at h
      have hpy := List.find?_some h
      have hmem : y ∈ pool := List.mem_of_find?_eq_some h
      refine ⟨by simpa using hpy, ?_⟩
      intro he
      exact hpool (he ▸ hmem)
    · rw [if_neg hc] at h
      simp only [Option.some.injEq] at h
      rw [← h]
      exact hinv r c z hcell

/-- C3 (amended): `revoke(t, [id])` is a no-op when `id` does not occur in
`t`; and provided `id` is absent from the connection pool — which is how the
manager invokes `revoke`, on peers that failed to dial — any table it
returns no longer contains `id` in the leaf set or any routing cell.  (The
pool-absence proviso is forced: the leaf backfill and cell repair re-install
pooled ids, see the counterexample.) -/
theorem revoke_removes_or_noop (L N b W self : Nat) (pool : List Nat)
    (t : Table) (id : Nat) (hpool : id ∉ pool) :
    (∀ t', revoke L N b W self pool t [id] = some t' →
        id ∉ t'.leaves ∧ ∀ r c, t'.routes r c ≠ some id) ∧
    ((id ∉ t.leaves ∧ ∀ r c, t.routes r c ≠ some id) →
        revoke L N b W self pool t [id] = some t) := by
  constructor
  · intro t' h
    rw [revoke_def, sortNat_singleton] at h
    have hleaves₁ : id ∉ swapRemove [id] t.leaves := by
      rw [swapRemove_mem_iff]
      rintro ⟨-, hc⟩
      rw [(containsSorted_singleton_iff id id).mpr rfl] at hc
      exact absurd hc (by simp)
    by_cases hint : t.leaves.all (fun x => !containsSorted [id] x) = true
    · rw [if_pos hint] at h
      replace h : some (⟨swapRemove [id] t.leaves,
          revokeRoutes b W self pool [id] t.routes⟩ : Table) = some t' := h
      simp only [Option.some.injEq] at h
      subst h
      exact ⟨hleaves₁, fun r c => revokeRoutes_not_down b W self pool id hpool t.routes r c⟩
    · rw [if_neg hint] at h
      cases hml : mergeLeaves L N self (swapRemove [id] t.leaves) pool with
      | none =>
        rw [hml] at h
        exact absurd h (by simp)
      | some lv =>
        rw [hml] at h
        replace h : some (⟨lv,
            revokeRoutes b W self pool [id] t.routes⟩ : Table) = some t' := h
        simp only [Option.some.injEq] at h
        subst h
        refine ⟨?_, fun r c => revokeRoutes_not_down b W self pool id hpool t.routes r c⟩
        intro hmem
        have := mergeLeaves_subset L N self _ pool lv hml id hmem
        rw [List.mem_append] at this
        rcases this with h' | h'
        · exact hleaves₁ h'
        · exact hpool h'
  · rintro ⟨hl, hr⟩
    rw [revoke_def, sortNat_singleton]
    have hnone : ∀ x ∈ t.leaves, containsSorted [id] x = false := by
      intro x hx
      refine containsSorted_singleton_false id x ?_
      intro he
      exact hl (he ▸ hx)
    have hint : t.leaves.all (fun x => !containsSorted [id] x) = true := by
      rw [List.all_eq_true]
      intro x hx
      rw [hnone x hx]
      rfl
    rw [if_pos hint]
    rw [swapRemove_id [id] t.leaves hnone]
    have hroutes : revokeRoutes b W self pool [id] t.routes = t.routes := by
      funext r c
      unfold revokeRoutes
      cases hcell : t.routes r c with
      | none => rfl
      | some y =>
        dsimp only
        have hy : y ≠ id := by
          intro he
          exact hr r c (he ▸ hcell)
        rw [containsSorted_singleton_false id y hy]
        simp
    rw [hroutes]

/-- Fixture for the `revoke_removes_or_noop` witness: revoking the down peer
`6` at node `5` with an empty pool. -/
def rTable' : Table :=
  { leaves := [5], routes := revokeRoutes 2 4 5 [] [6] (fun _ _ => none) }

theorem revoke_removes_or_noop_witness : 6 ∉ rTable'.leaves :=
  ((revoke_removes_or_noop 4 16 2 4 5 []
      { leaves := [5, 6], routes := fun _ _ => none } 6 (by decide)).1
    rTable' (by rfl)).1

/-- C3 counterexample: revoking an id that is still in the connection pool
does not remove it — the leaf backfill re-adds it.  Here node `5` revokes
`6` from the table with leaves `[5, 6]` while `6` is pooled: the resulting
leaf set is `[5, 6]` again. -/
theorem revoke_pool_readds :
    (revoke 4 16 2 4 5 [6] { leaves := [5, 6], routes := fun _ _ => none } [6]).map
        Table.leaves = some [5, 6] ∧ (6 : Nat) ∈ [5, 6] := by
  exact ⟨rfl, by decide⟩

/-- C1 (amended): tables produced by the overlay's operations keep pairwise
distinct ids in the leaf set but always store `self` there (the other
components skip it explicitly): every window returned by `mergeLeaves` is
distinct and contains `self`; a table returned by `revoke` keeps leaves
distinct and keeps `self` (the node never revokes itself — `discover` skips
`self` — and the backfill window recovers it).  Every id a merge installs in
the routing matrix sits at its own prefix cell and is never `self`, and
`revoke`'s pool refill preserves this (the local node is never in the
connection pool), so the occupied route cells are pairwise distinct and
distinct from `self`. -/
theorem table_invariants_amended (L N b W self : Nat) (hL : 2 ≤ L) :
    (∀ a bl l, mergeLeaves L N self a bl = some l → l.Nodup ∧ self ∈ l) ∧
    (∀ rt entries, RoutesInv b W self rt →
        RoutesInv b W self (mergeRoutes b W self rt (extractIds self entries))) ∧
    (∀ pool t downs t', revoke L N b W self pool t downs = some t' →
        (t.leaves.Nodup → t'.leaves.Nodup) ∧
        (self ∈ t.leaves → self ∉ downs → self ∈ t'.leaves) ∧
        (self ∉ pool → RoutesInv b W self t.routes → RoutesInv b W self t'.routes)) ∧
    (∀ rt, RoutesInv b W self rt →
        ∀ r c r' c' y, rt r c = some y → rt r' c' = some y → r = r' ∧ c = c') := by
  refine ⟨?_, ?_, ?_, ?_⟩
  · intro a bl l h
    exact ⟨mergeLeaves_nodup L N self a bl l h,
           mergeLeaves_self_mem L N self a bl l hL h⟩
  · intro rt entries hinv
    exact mergeRoutes_inv b W self _ rt hinv (extractIds_ne_self self entries)
  · intro pool t downs t' h
    rw [revoke_def] at h
    by_cases hint : t.leaves.all (fun x => !containsSorted (sortNat downs) x) = true
    · rw [if_pos hint] at h
      replace h : some (⟨swapRemove (sortNat downs) t.leaves,
          revokeRoutes b W self pool (sortNat downs) t.routes⟩ : Table) = some t' := h
      simp only [Option.some.injEq] at h
      subst h
      refine ⟨fun hnd => swapRemove_nodup _ _ hnd, ?_, ?_⟩
      · intro hselfmem hdowns
        rw [swapRemove_mem_iff]
        exact ⟨hselfmem, containsSorted_sortNat_false downs self hdowns⟩
      · intro hpool hinv
        exact revokeRoutes_inv b W self pool _ t.routes hpool hinv
    · rw [if_neg hint] at h
      cases hml : mergeLeaves L N self (swapRemove (sortNat downs) t.leaves) pool with
      | none => rw [hml] at h; exact absurd h (by simp)
      | some lv =>
        rw [hml] at h
        replace h : some (⟨lv,
            revokeRoutes b W self pool (sortNat downs) t.routes⟩ : Table) = some t' := h
        simp only [Option.some.injEq] at h
        subst h
        refine ⟨fun _ => mergeLeaves_nodup L N self _ pool lv hml, ?_, ?_⟩
        · intro _ _
          exact mergeLeaves_self_mem L N self _ pool lv hL hml
        · intro hpool hinv
          exact revokeRoutes_inv b W self pool _ t.routes hpool hinv
  · intro rt hinv
    exact routesInv_cell_unique b W self rt hinv

/-- Fixture for the `table_invariants_amended` witness: the table left by
node `5` revoking the unpooled peer `9` from leaves `[5, 9]`. -/
def rwTable' : Table :=
  { leaves := [5],
    routes := revokeRoutes 2 4 5 [] (sortNat [9]) (fun _ _ => none) }

theorem table_invariants_amended_witness :
    (([5, 9] : List Nat).Nodup ∧ 5 ∈ ([5, 9] : List Nat)) ∧ 5 ∈ rwTable'.leaves :=
  ⟨(table_invariants_amended 4 16 2 4 5 (by decide)).1 [5, 9] [] [5, 9] (by rfl),
   ((table_invariants_amended 4 16 2 4 5 (by decide)).2.2.1
       [] { leaves := [5, 9], routes := fun _ _ => none } [9] rwTable' (by rfl)).2.1
     (by decide) (by decide)⟩

end Iris

namespace Heart

/-! ## Lemmas about the Heart -/

lemma runCycles_mems (h : HeartState) : ∀ n, (runCycles h n).mems = h.mems := by
  intro n
  induction n with
  | zero => rfl
  | succ n ih => rw [runCycles, ← ih]; rfl

lemma runCycles_tick (h : HeartState) : ∀ n, (runCycles h n).tick = h.tick + n := by
  intro n
  induction n with
  | zero => rfl
  | succ n ih =>
    show (runCycles h n).tick + 1 = h.tick + (n + 1)
    omega

lemma runCycles_kill (h : HeartState) : ∀ n, (runCycles h n).kill = h.kill := by
  intro n
  induction n with
  | zero => rfl
  | succ n ih => rw [runCycles, ← ih]; rfl

lemma deadListAt_eq (h : HeartState) (n : Nat) :
    deadListAt h n =
      (h.mems.filter (fun m => h.kill ≤ h.tick + n + 1 - m.tick)).map (·.id) := by
  unfold deadListAt beatCycle
  dsimp only
  simp only [runCycles_mems, runCycles_tick, runCycles_kill]

lemma mem_deadListAt_iff (h : HeartState) (n x : Nat) :
    x ∈ deadListAt h n ↔
      ∃ m ∈ h.mems, m.id = x ∧ h.kill ≤ h.tick + n + 1 - m.tick := by
  rw [deadListAt_eq]
  simp only [List.mem_map, List.mem_filter, decide_eq_true_eq]
  constructor
  · rintro ⟨m, ⟨hm, hc⟩, hid⟩
    exact ⟨m, hm, hid, hc⟩
  · rintro ⟨m, hm, hid, hc⟩
    exact ⟨m, ⟨hm, hc⟩, hid⟩

lemma deadListAt_nodup (h : HeartState) (n : Nat)
    (hnd : (h.mems.map Entity.id).Nodup) : (deadListAt h n).Nodup := by
  rw [deadListAt_eq]
  exact ((List.filter_sublist _).map Entity.id).nodup hnd

/-- If the state holds exactly one entity carrying id `x` (with tick `T`),
then `x` is in the dead list of cycle `n + 1` iff its tick deficit at the
post-increment tick reaches `kill`. -/
lemma deadListAt_unique (h : HeartState) (x T n : Nat)
    (hmem : (⟨x, T⟩ : Entity) ∈ h.mems)
    (huniq : ∀ m ∈ h.mems, m.id = x → m = ⟨x, T⟩) :
    (x ∈ deadListAt h n ↔ h.kill ≤ h.tick + n + 1 - T) := by
  rw [mem_deadListAt_iff]
  constructor
  · rintro ⟨m, hm, hid, hc⟩
    rw [huniq m hm hid] at hc
    exact hc
  · intro hc
    exact ⟨⟨x, T⟩, hmem, rfl, hc⟩

lemma monitor_ok (h₀ : HeartState) (x : Nat) (h₁ : HeartState)
    (hm : monitor h₀ x = .ok h₁) :
    (∀ m ∈ h₀.mems, m.id ≠ x) ∧
      h₁.mems = sortEntities (h₀.mems ++ [⟨x, h₀.tick⟩]) ∧
      h₁.tick = h₀.tick ∧ h₁.kill = h₀.kill := by
  unfold monitor at hm
  by_cases hany : h₀.mems.any (fun m => m.id == x) = true
  · rw [if_pos hany] at hm
    exact absurd hm (by simp)
  · rw [if_neg hany] at hm
    simp only [Except.ok.injEq] at hm
    subst hm
    refine ⟨?_, rfl, rfl, rfl⟩
    intro m hmem hid
    exact hany (List.any_eq_true.mpr ⟨m, hmem, by simp [hid]⟩)

lemma monitor_mem_unique (h₀ : HeartState) (x : Nat) (h₁ : HeartState)
    (hm : monitor h₀ x = .ok h₁) :
    (⟨x, h₀.tick⟩ : Entity) ∈ h₁.mems ∧
      ∀ m ∈ h₁.mems, m.id = x → m = ⟨x, h₀.tick⟩ := by
  obtain ⟨hno, hmems, -, -⟩ := monitor_ok h₀ x h₁ hm
  have hperm : h₁.mems.Perm (h₀.mems ++ [⟨x, h₀.tick⟩]) := by
    rw [hmems]
    exact List.perm_insertionSort _ _
  constructor
  · exact hperm.mem_iff.mpr (by simp)
  · intro m hm' hid
    have hm'' := hperm.mem_iff.mp hm'
    rw [List.mem_append] at hm''
    rcases hm'' with h' | h'
    · exact absurd hid (hno m h')
    · simpa using h'

lemma findIdx?_spec {α : Type} (p : α → Bool) :
    ∀ (l : List α) (i : Nat), l.findIdx? p = some i →
      ∃ h : i < l.length, p (l.get ⟨i, h⟩) = true := by
  intro l
  induction l with
  | nil => intro i h; simp [List.findIdx?] at h
  | cons a as ih =>
    intro i h
    rw [show List.findIdx? p (a :: as) =
        if p a then some 0 else (List.findIdx? p as).map (· + 1) from by
      simp [List.findIdx?_cons]] at h
    by_cases hp : p a = true
    · rw [if_pos hp] at h
      simp only [Option.some.injEq] at h
      subst h
      exact ⟨by simp, hp⟩
    · rw [if_neg hp] at h
      cases hf : as.findIdx? p with
      | none => rw [hf] at h; exact absurd h (by simp)
      | some j =>
        rw [hf] at h
        simp only [Option.map_some', Option.some.injEq] at h
        subst h
        obtain ⟨hj, hpj⟩ := ih j hf
        exact ⟨by simpa using Nat.succ_lt_succ hj, hpj⟩

lemma ping_ok (h₀ : HeartState) (x : Nat) (h₁ : HeartState)
    (hp : ping h₀ x = .ok h₁) :
    (∃ idx, ∃ hidx : idx < h₀.mems.length,
        (h₀.mems.get ⟨idx, hidx⟩).id = x ∧
          h₁.mems = h₀.mems.set idx ⟨x, h₀.tick⟩) ∧
      h₁.tick = h₀.tick ∧ h₁.kill = h₀.kill := by
  unfold ping at hp
  cases hf : h₀.mems.findIdx? (fun m => m.id == x) with
  | none => rw [hf] at hp; exact absurd hp (by simp)
  | some idx =>
    rw [hf] at hp
    simp only [Except.ok.injEq] at hp
    subst hp
    obtain ⟨hidx, hpred⟩ := findIdx?_spec _ h₀.mems idx hf
    exact ⟨⟨idx, hidx, by simpa using hpred, rfl⟩, rfl, rfl⟩

/-- C6: an entity refreshed at tick `T` (by `monitor`, which stores the
current tick, or by `ping`) and never refreshed again is first reported dead
at the beat cycle whose post-increment tick is `T + kill`; cycle `n + 1`
counted from the refreshed state has post-increment tick `T + n + 1`. -/
theorem heart_death_timing (h₀ : HeartState) (x : Nat) (h₁ : HeartState) (n : Nat) :
    (monitor h₀ x = .ok h₁ →
      (⟨x, h₀.tick⟩ : Entity) ∈ h₁.mems ∧
        (x ∈ deadListAt h₁ n ↔ h₀.tick + h₀.kill ≤ h₀.tick + n + 1)) ∧
    ((h₀.mems.map Entity.id).Nodup → ping h₀ x = .ok h₁ →
      (⟨x, h₀.tick⟩ : Entity) ∈ h₁.mems ∧
        (x ∈ deadListAt h₁ n ↔ h₀.tick + h₀.kill ≤ h₀.tick + n + 1)) := by
  constructor
  · intro hm
    obtain ⟨hmem, huniq⟩ := monitor_mem_unique h₀ x h₁ hm
    obtain ⟨-, -, htick, hkill⟩ := monitor_ok h₀ x h₁ hm
    refine ⟨hmem, ?_⟩
    rw [deadListAt_unique h₁ x h₀.tick n hmem huniq, htick, hkill]
    omega
  · intro hnd hp
    obtain ⟨⟨idx, hidx, hpid, hmems⟩, htick, hkill⟩ := ping_ok h₀ x h₁ hp
    have hmem : (⟨x, h₀.tick⟩ : Entity) ∈ h₁.mems := by
      rw [hmems]
      refine List.mem_iff_get.mpr ⟨⟨idx, by rw [List.length_set]; exact hidx⟩, ?_⟩
      rw [List.get_eq_getElem, List.getElem_set_self]
    have huniq : ∀ m ∈ h₁.mems, m.id = x → m = ⟨x, h₀.tick⟩ := by
      intro m hm' hid
      rw [hmems] at hm'
      obtain ⟨⟨j, hj⟩, hget⟩ := List.mem_iff_get.mp hm'
      have hj' : j < h₀.mems.length := by
        rw [List.length_set] at hj
        exact hj
      by_cases hji : j = idx
      · subst hji
        rw [List.get_eq_getElem, List.getElem_set_self] at hget
        exact hget.symm
      · exfalso
        have hget' : h₀.mems.get ⟨j, hj'⟩ = m := by
          rw [List.get_eq_getElem, List.getElem_set_ne (Ne.symm hji)] at hget
          rw [List.get_eq_getElem]
          exact hget
        have e1 : (h₀.mems.get ⟨j, hj'⟩).id = x := by
          rw [hget']
          exact hid
        have hmapeq : (h₀.mems.map Entity.id).get ⟨j, by simpa using hj'⟩ =
            (h₀.mems.map Entity.id).get ⟨idx, by simpa using hidx⟩ := by
          rw [List.get_eq_getElem, List.get_eq_getElem, List.getElem_map,
            List.getElem_map]
          exact e1.trans hpid.symm
        have hfin := (List.Nodup.get_inj_iff hnd).mp hmapeq
        simp only [Fin.mk.injEq] at hfin
        exact hji hfin
    refine ⟨hmem, ?_⟩
    rw [deadListAt_unique h₁ x h₀.tick n hmem huniq, htick, hkill]
    omega

/-- The heart state right after monitoring entity `7` at tick `0` with
`kill = 3`. -/
def cexHeart : HeartState :=
  { mems := [{ id := 7, tick := 0 }], tick := 0, kill := 3 }

theorem heart_death_timing_witness :
    (⟨7, 0⟩ : Entity) ∈ cexHeart.mems ∧ 7 ∈ deadListAt cexHeart 2 := by
  have h := (heart_death_timing { mems := [], tick := 0, kill := 3 } 7 cexHeart 2).1 (by rfl)
  exact ⟨h.1, h.2.mpr (by decide)⟩

/-- C2 counterexample: with `kill = 3`, a monitored and never pinged entity
is collected dead at cycle 3 **and again** at cycle 4 — `Dead` is not
emitted exactly once, because the beater does not unmonitor dead entities. -/
theorem heart_dead_twice :
    monitor { mems := [], tick := 0, kill := 3 } 7 = .ok cexHeart ∧
      deadListAt cexHeart 2 = [7] ∧ deadListAt cexHeart 3 = [7] := by
  refine ⟨by rfl, by decide, by decide⟩

/-- C2 (amended): if `ping(id)` is never called after `monitor(id)` (and the
entity is never unmonitored), `Dead(id)` is emitted within `kill_after` beat
cycles — first at cycle `kill_after` — and is emitted again at every
subsequent beat cycle; each cycle collects the id at most once. -/
theorem heart_dead_every_cycle (h₀ : HeartState) (x : Nat) (h₁ : HeartState)
    (hm : monitor h₀ x = .ok h₁) (n : Nat) (hk : h₀.kill ≤ n + 1) :
    x ∈ deadListAt h₁ n ∧
      ((h₀.mems.map Entity.id).Nodup → (deadListAt h₁ n).Nodup) := by
  obtain ⟨hmem, huniq⟩ := monitor_mem_unique h₀ x h₁ hm
  obtain ⟨hno, hmems, htick, hkill⟩ := monitor_ok h₀ x h₁ hm
  constructor
  · rw [deadListAt_unique h₁ x h₀.tick n hmem huniq, htick, hkill]
    omega
  · intro hnd
    refine deadListAt_nodup h₁ n ?_
    have hperm : (h₁.mems.map Entity.id).Perm
        ((h₀.mems ++ [(⟨x, h₀.tick⟩ : Entity)]).map Entity.id) := by
      refine List.Perm.map Entity.id ?_
      rw [hmems]
      exact List.perm_insertionSort _ _
    rw [hperm.nodup_iff]
    rw [List.map_append]
    refine List.Nodup.append hnd (by simp) ?_
    intro a ha hb
    simp only [List.map_cons, List.map_nil, List.mem_singleton] at hb
    subst hb
    rw [List.mem_map] at ha
    obtain ⟨m, hm', hid⟩ := ha
    exact hno m hm' hid

theorem heart_dead_every_cycle_witness : 7 ∈ deadListAt cexHeart 3 :=
  (heart_dead_every_cycle { mems := [], tick := 0, kill := 3 } 7 cexHeart (by rfl) 3
    (by decide)).1

/-- Positions of a dead-event list: every entry is a `dead` event (or the
out-of-range default). -/
lemma map_dead_getD (l : List Nat) (i : Nat) :
    (l.map HeartEvent.dead).getD i HeartEvent.lockAcquire = HeartEvent.lockAcquire ∨
      ∃ d, (l.map HeartEvent.dead).getD i HeartEvent.lockAcquire = HeartEvent.dead d := by
  by_cases hi : i < (l.map HeartEvent.dead).length
  · right
    rw [List.getD_eq_getElem _ _ hi, List.getElem_map]
    exact ⟨_, rfl⟩
  · left
    rw [List.getD_eq_default]
    omega

/-- C7: in the action trace of one beat cycle the mutex release sits at
position 1 (preceded only by the acquisition), the single `Beat` callback at
position 2, every callback strictly after the release, every `Dead` callback
strictly after `Beat`, and the `Dead` callbacks spell out exactly the
collected dead list, in order. -/
theorem heart_beat_cycle_callback_order (h : HeartState) :
    ((beatTrace h).filterMap deadId? = (beatCycle h).2) ∧
    (∀ i, (beatTrace h).getD i HeartEvent.lockAcquire = HeartEvent.lockRelease ↔ i = 1) ∧
    (∀ i, (beatTrace h).getD i HeartEvent.lockAcquire = HeartEvent.beat ↔ i = 2) ∧
    (∀ i, isCallback ((beatTrace h).getD i HeartEvent.lockAcquire) = true → 1 < i) ∧
    (∀ i d, (beatTrace h).getD i HeartEvent.lockAcquire = HeartEvent.dead d → 2 < i) := by
  have htr : beatTrace h =
      HeartEvent.lockAcquire :: HeartEvent.lockRelease :: HeartEvent.beat ::
        (beatCycle h).2.map HeartEvent.dead := rfl
  refine ⟨?_, ?_, ?_, ?_, ?_⟩
  · rw [htr]
    simp only [List.filterMap_cons, deadId?]
    rw [List.filterMap_map]
    have hcomp : (deadId? ∘ HeartEvent.dead) = some := by
      funext d
      rfl
    rw [hcomp, List.filterMap_some]
  · intro i
    rw [htr]
    match i with
    | 0 => simp [List.getD_cons_zero]
    | 1 => simp [List.getD_cons_succ, List.getD_cons_zero]
    | 2 => simp [List.getD_cons_succ, List.getD_cons_zero]
    | (j + 3) =>
      simp only [List.getD_cons_succ]
      rcases map_dead_getD (beatCycle h).2 j with h' | ⟨d, h'⟩ <;>
        rw [h'] <;>
        exact ⟨fun hc => by simp at hc, fun hc => by omega⟩
  · intro i
    rw [htr]
    match i with
    | 0 => simp [List.getD_cons_zero]
    | 1 => simp [List.getD_cons_succ, List.getD_cons_zero]
    | 2 => simp [List.getD_cons_succ, List.getD_cons_zero]
    | (j + 3) =>
      simp only [List.getD_cons_succ]
      rcases map_dead_getD (beatCycle h).2 j with h' | ⟨d, h'⟩ <;>
        rw [h'] <;>
        exact ⟨fun hc => by simp at hc, fun hc => by omega⟩
  · intro i hcb
    rw [htr] at hcb
    match i with
    | 0 => simp [List.getD_cons_zero, isCallback] at hcb
    | 1 => simp [List.getD_cons_succ, List.getD_cons_zero, isCallback] at hcb
    | (j + 2) => omega
  · intro i d hd
    rw [htr] at hd
    match i with
    | 0 => simp [List.getD_cons_zero] at hd
    | 1 => simp [List.getD_cons_succ, List.getD_cons_zero] at hd
    | 2 => simp [List.getD_cons_succ, List.getD_cons_zero] at hd
    | (j + 3) => omega

/-- The heart state of `cexHeart` two ticks later, whose next beat cycle
collects entity `7`. -/
def cexHeart3 : HeartState :=
  { mems := [{ id := 7, tick := 0 }], tick := 2, kill := 3 }

theorem heart_beat_cycle_callback_order_witness :
    isCallback ((beatTrace cexHeart3).getD 3 HeartEvent.lockAcquire) = true ∧ 1 < 3 :=
  ⟨by decide, (heart_beat_cycle_callback_order cexHeart3).2.2.2.1 3 (by decide)⟩

end Heart
